import Mathlib

/-!
Verification development for the codesage refactoring agent
(`agent.py`, `utils.py`, `config.py`, `web_app.py`, `main.py`).

The Python code is embedded shallowly:

* `extract_code_from_markdown` (utils.py lines 59-79) is modelled exactly,
  including the two regular expressions it searches with.  The Python regex
  engine's leftmost-match and backtracking priorities (greedy for the optional
  word tag and the whitespace run, lazy for the captured interior) are encoded
  by explicit descent functions (`tryWS`, `tryWord`, `capTo`).  Character
  classes are modelled at their ASCII meaning, which covers every input used
  in the development.
* `_call_gemini_api` (agent.py lines 27-65) is modelled as a total function
  over an oracle giving the outcome of each underlying remote attempt; the
  returned trace records the result string, how many remote calls were issued
  and every sleep (attempt index, duration) performed.  Totality of the Lean
  function models the fact that the Python function never raises to its
  caller (every path is inside try/except and every handler returns).
* `refactor_code` (agent.py lines 96-123) is modelled with the invoker's
  returned text as a parameter; the result records the produced output and
  whether a remote call was issued.
* The batch loop of `RefactoringAgent.run` (agent.py lines 136-188) with the
  tracking wrappers installed by `run_refactoring_task` (web_app.py lines
  128-154) is modelled by `processFile`/`runBatch`; per-file file-system
  failures are injected through each `FileCase` (read failure, blank content,
  write failure).  Display-only state (icons, per-file descriptor list) is
  not tracked.
* `start_refactoring` (web_app.py lines 209-241) and the validation slice of
  `main` (main.py lines 60-126) are modelled at the level of their control
  flow, with the earlier I/O checks abstracted as booleans.
-/

set_option linter.unusedVariables false

/-! ## Basic list-of-characters utilities (ASCII model of Python semantics) -/

/-- Python `\s` / `str.strip` whitespace class (ASCII part):
space, tab, newline, carriage return, vertical tab, form feed. -/
def isPySpace (c : Char) : Bool :=
  c == ' ' || c == '\t' || c == '\n' || c == '\r' || c == '\x0b' || c == '\x0c'

/-- Python regex `\w` word class (ASCII part): letters, digits, underscore. -/
def isWordChar (c : Char) : Bool :=
  c.isAlphanum || c == '_'

/-- Prefix test on character lists: `startsWithL p s` holds when `p` is a
prefix of `s`.  Models Python `str.startswith`. -/
def startsWithL : List Char → List Char → Bool
  | [], _ => true
  | _ :: _, [] => false
  | p :: ps, c :: cs => p == c && startsWithL ps cs

/-- Substring test: `containsL t s` holds when `t` occurs in `s`.
Models Python `in` on strings. -/
def containsL (t : List Char) : List Char → Bool
  | [] => startsWithL t []
  | c :: cs => startsWithL t (c :: cs) || containsL t cs

/-- Python `str.strip()` on a character list: drop leading and trailing
whitespace. -/
def pyStripL (s : List Char) : List Char :=
  ((s.dropWhile isPySpace).reverse.dropWhile isPySpace).reverse

/-- Python `str.strip()` on strings. -/
def pyStrip (s : String) : String :=
  ⟨pyStripL s.data⟩

/-- Python `str.lower()` (ASCII part). -/
def pyLower (s : List Char) : List Char :=
  s.map Char.toLower

/-- The three-backtick fence delimiter. -/
def bt3 : List Char := ['`', '`', '`']

/-- A newline immediately followed by a closing fence, the terminator of the
strict code-block regex. -/
def nl3bt : List Char := ['\n', '`', '`', '`']

/-- The error sentinel `"Error:"` used throughout agent.py. -/
def errMark : List Char := ['E', 'r', 'r', 'o', 'r', ':']

/-! ## Response Extractor (utils.py, `extract_code_from_markdown`)

The function searches the text with
`re.compile(r"```(?:\w+)?\s*\n(.*?)\n```", re.DOTALL)`, then with
`re.compile(r"```(?:\w+)?(.*?)```", re.DOTALL)`, and finally falls back to
the stripped whole text.  `re.search` returns the leftmost match; within a
start position the optional `\w+` tag is tried greedily (longest first, then
skipped), the `\s*` run greedily, and the capture `(.*?)` lazily (shortest
first). -/

/-- Lazy capture: the shortest prefix of the input after which `term` occurs,
or `none` when `term` does not occur at all.  Models a lazy `(.*?)` followed
by the literal `term`. -/
def capTo (term : List Char) : List Char → Option (List Char)
  | [] => bif startsWithL term [] then some [] else none
  | c :: cs =>
    bif startsWithL term (c :: cs) then some []
    else (capTo term cs).map (fun p => c :: p)

/-- Matcher for the suffix `\n(.*?)\n```` of the strict pattern: a literal
newline, then the lazy capture terminated by `"\n```"`. -/
def fenceTail : List Char → Option (List Char)
  | [] => none
  | c :: r => bif c == '\n' then capTo nl3bt r else none

/-- Backtracking over the greedy `\s*`: try consuming `b` whitespace
characters first (the caller passes the maximal whitespace run), then
backtrack down to zero. -/
def tryWS (s : List Char) : Nat → Option (List Char)
  | 0 => fenceTail s
  | b + 1 =>
    match fenceTail (s.drop (b + 1)) with
    | some cap => some cap
    | none => tryWS s b

/-- Length of the maximal whitespace prefix (the most `\s*` can consume). -/
def wsPrefixLen : List Char → Nat
  | [] => 0
  | c :: cs => bif isPySpace c then wsPrefixLen cs + 1 else 0

/-- Length of the maximal word-character prefix (the most `\w+` can
consume). -/
def wordPrefixLen : List Char → Nat
  | [] => 0
  | c :: cs => bif isWordChar c then wordPrefixLen cs + 1 else 0

/-- Backtracking over the greedy optional tag `(?:\w+)?` of the strict
pattern: try the longest word prefix first, down to one character, then skip
the tag altogether. -/
def tryWord (rest : List Char) : Nat → Option (List Char)
  | 0 => tryWS rest (wsPrefixLen rest)
  | a + 1 =>
    match tryWS (rest.drop (a + 1)) (wsPrefixLen (rest.drop (a + 1))) with
    | some cap => some cap
    | none => tryWord rest a

/-- `re.search` of the strict pattern ` ```(?:\w+)?\s*\n(.*?)\n``` `:
scan start positions left to right; at a position starting with a fence, run
the backtracking matcher; on failure move one character right. -/
def search1 : List Char → Option (List Char)
  | [] => none
  | c :: cs =>
    bif startsWithL bt3 (c :: cs) then
      match tryWord (cs.drop 2) (wordPrefixLen (cs.drop 2)) with
      | some cap => some cap
      | none => search1 cs
    else search1 cs

/-- Backtracking for the loose pattern's optional tag, followed directly by
the lazy capture terminated by a bare ` ``` `. -/
def tryWord2 (rest : List Char) : Nat → Option (List Char)
  | 0 => capTo bt3 rest
  | a + 1 =>
    match capTo bt3 (rest.drop (a + 1)) with
    | some cap => some cap
    | none => tryWord2 rest a

/-- `re.search` of the loose pattern ` ```(?:\w+)?(.*?)``` `. -/
def search2 : List Char → Option (List Char)
  | [] => none
  | c :: cs =>
    bif startsWithL bt3 (c :: cs) then
      match tryWord2 (cs.drop 2) (wordPrefixLen (cs.drop 2)) with
      | some cap => some cap
      | none => search2 cs
    else search2 cs

/-- Core of `extract_code_from_markdown` (utils.py lines 59-79) on character
lists: empty or error-marked input yields empty; otherwise the strict
pattern's first capture, else the loose pattern's first capture, else the
whole text — each stripped. -/
def extractL (s : List Char) : List Char :=
  bif s.isEmpty || startsWithL errMark s then []
  else
    match search1 s with
    | some cap => pyStripL cap
    | none =>
      match search2 s with
      | some cap => pyStripL cap
      | none => pyStripL s

/-- `extract_code_from_markdown` (utils.py lines 59-79). -/
def extract_code_from_markdown (markdown_text : String) : String :=
  ⟨extractL markdown_text.data⟩

/-! ## Configuration (config.py) -/

/-- `Config.MAX_FILE_SIZE_FOR_REFACTORING` (config.py line 21), default value
of the environment override. -/
def MAX_FILE_SIZE_FOR_REFACTORING : Nat := 15000

/-! ## Resilient Call Invoker (agent.py, `_call_gemini_api`) -/

/-- Observable outcome of one underlying `generate_content` attempt:
either the call raises (with the exception's text), or it returns a response
whose first candidate is safety-blocked or carries usable text. -/
inductive AttemptResult where
  | raises (msg : String)
  | response (safetyBlocked : Bool) (text : String)
deriving DecidableEq

/-- An attempt succeeds only when it returns an un-blocked response. -/
def isOk : AttemptResult → Bool
  | .response false _ => true
  | _ => false

/-- Trace of one invoker run: the returned string, the number of remote
calls issued, and each sleep as (0-based attempt index, seconds slept). -/
structure InvokeTrace where
  result : String
  calls : Nat
  sleeps : List (Nat × Nat)
deriving DecidableEq

/-- The quota / rate-limit test of agent.py line 53:
`"quota" in str(e).lower() or "rate" in str(e).lower()`. -/
def isQuotaRate (msg : String) : Bool :=
  containsL ['q', 'u', 'o', 't', 'a'] (pyLower msg.data) ||
    containsL ['r', 'a', 't', 'e'] (pyLower msg.data)

/-- The retry loop of `_call_gemini_api` (agent.py lines 35-63):
`attempt` is the current 0-based index, `fuel` the remaining iterations of
`range(max_retries)`.  On exhaustion the fallback of line 65 is returned. -/
def callLoop (oracle : Nat → AttemptResult) (max_retries : Nat) :
    Nat → Nat → InvokeTrace
  | _, 0 => ⟨"Error: Unexpected error occurred.", 0, []⟩
  | attempt, fuel + 1 =>
    match oracle attempt with
    | .response true _ =>
      if attempt = max_retries - 1 then
        ⟨"Error: Response blocked by safety filters.", 1, []⟩
      else
        let t := callLoop oracle max_retries (attempt + 1) fuel
        ⟨t.result, t.calls + 1, t.sleeps⟩
    | .response false text => ⟨text, 1, []⟩
    | .raises msg =>
      if isQuotaRate msg then
        let t := callLoop oracle max_retries (attempt + 1) fuel
        ⟨t.result, t.calls + 1, (attempt, 60) :: t.sleeps⟩
      else if attempt < max_retries - 1 then
        let t := callLoop oracle max_retries (attempt + 1) fuel
        ⟨t.result, t.calls + 1, (attempt, (attempt + 1) * 2) :: t.sleeps⟩
      else
        ⟨"Error: Could not get a response from the API after " ++
            toString max_retries ++ " attempts. Last error: " ++ msg, 1, []⟩

/-- `_call_gemini_api` (agent.py lines 27-65), parameterised by the oracle
of per-attempt outcomes. -/
def _call_gemini_api (oracle : Nat → AttemptResult) (max_retries : Nat) :
    InvokeTrace :=
  callLoop oracle max_retries 0 max_retries

/-! ## File Task Runner refactor path (agent.py, `refactor_code`) -/

/-- Result of `refactor_code`: the produced text and whether a remote call
was issued. -/
structure RefactorResult where
  output : String
  apiCalled : Bool
deriving DecidableEq

/-- `refactor_code` (agent.py lines 96-123): oversized files are passed
through without a remote call; otherwise the invoker's returned text
(`api_response`) is run through the extractor, and an empty or error-marked
payload falls back to the original content. -/
def refactor_code (max_refactor_size : Nat) (file_path : String)
    (code_content : String) (api_response : String) : RefactorResult :=
  if code_content.length > max_refactor_size then
    { output := code_content, apiCalled := false }
  else
    let extracted := extract_code_from_markdown api_response
    if extracted.data.isEmpty || startsWithL errMark extracted.data then
      { output := code_content, apiCalled := true }
    else
      { output := extracted, apiCalled := true }

/-! ## Batch loop with web tracking (agent.py `run` + web_app.py wrappers) -/

/-- One accepted file together with the injected environment outcomes for
processing it: `read = none` models the file read raising, `writeOk = false`
models the persistence write raising; the two response strings are what
`_call_gemini_api` returned for the analysis and refactor calls. -/
structure FileCase where
  path : String
  read : Option String
  writeOk : Bool
  analysisResponse : String
  refactorResponse : String
deriving DecidableEq

/-- The shared progress counters of `processing_state` (web_app.py lines
30-45) together with the agent's own accumulators: `processed_local` is the
local `processed_files` counter of agent.py line 136, `analysis_results` the
list of agent.py line 17, `outputs` the persisted (path, content) pairs. -/
structure BatchState where
  files_processed : Nat
  files_analyzed : Nat
  files_refactored : Nat
  processed_local : Nat
  analysis_results : List String
  outputs : List (String × String)
deriving DecidableEq

/-- The reset counters at the start of a run (web_app.py lines 227-231). -/
def initialBatchState : BatchState := ⟨0, 0, 0, 0, [], []⟩

/-- One iteration of the per-file loop of `RefactoringAgent.run` (agent.py
lines 142-181) with the tracking wrappers `tracked_analyze` /
`tracked_refactor` (web_app.py lines 132-151) installed.  A raising read is
caught by the per-file handler; blank files are skipped before any call;
`tracked_analyze` bumps `files_analyzed`, `tracked_refactor` bumps both
`files_refactored` and `files_processed`; a raising write is caught after
those increments, so only a successful write bumps the local counter and
persists output. -/
def processFile (st : BatchState) (fc : FileCase) : BatchState :=
  match fc.read with
  | none => st
  | some original_code =>
    if pyStripL original_code.data = [] then st
    else
      let st1 := { st with
        files_analyzed := st.files_analyzed + 1,
        analysis_results := st.analysis_results ++
          ["File: " ++ fc.path ++ "\n" ++ fc.analysisResponse ++ "\n"] }
      let r := refactor_code MAX_FILE_SIZE_FOR_REFACTORING fc.path
        original_code fc.refactorResponse
      let st2 := { st1 with
        files_refactored := st1.files_refactored + 1,
        files_processed := st1.files_processed + 1 }
      if fc.writeOk then
        { st2 with
          outputs := st2.outputs ++ [(fc.path, r.output)],
          processed_local := st2.processed_local + 1 }
      else st2

/-- The whole batch loop over the accepted files. -/
def runBatch (files : List FileCase) : BatchState :=
  files.foldl processFile initialBatchState

/-- Number of skipped-or-failed files of a run, following the wording of the
completion-count claim: a file is skipped or failed when its read raises,
its content is blank, or its write raises. -/
def skippedOrFailedCount (files : List FileCase) : Nat :=
  (files.filter (fun fc =>
    match fc.read with
    | none => true
    | some c => (pyStripL c.data).isEmpty || !fc.writeOk)).length

/-! ## Web start operation and background task (web_app.py) -/

/-- Outcome of `start_refactoring`: an HTTP-400 rejection with its error
message, or a started background task with the arguments handed to it. -/
inductive StartResponse where
  | rejected (error : String) (code : Nat)
  | started (source_path output_dir model : String)
      (skip_analysis skip_refactoring : Bool) (delay : Int)
deriving DecidableEq

/-- `start_refactoring` (web_app.py lines 209-241): refuse when a task is
active, strip the source path and refuse when it is empty, otherwise start
the background thread with exactly the received arguments.  No other field
is validated. -/
def start_refactoring (active : Bool) (sourcePath outputDir model : String)
    (skipAnalysis skipRefactoring : Bool) (delay : Int) : StartResponse :=
  if active then .rejected "A task is already running" 400
  else
    let source_path := pyStrip sourcePath
    if source_path = "" then .rejected "Source path is required" 400
    else .started source_path outputDir model skipAnalysis skipRefactoring delay

/-- Environment of one background task run: the boolean outcomes of the
validation steps of web_app.py lines 89-113 and the accepted files the walk
yields. -/
structure TaskEnv where
  api_key_ok : Bool
  source_is_git : Bool
  clone_ok : Bool
  source_valid : Bool
  files : List FileCase
deriving DecidableEq

/-- Observable outcome of one background task run: final status and error
of `processing_state`, the batch counters, and whether the two synthesis
documents were written. -/
structure TaskOutcome where
  status : String
  error : Option String
  batch : BatchState
  wrote_recommendations : Bool
  wrote_interview_questions : Bool
deriving DecidableEq

/-- `run_refactoring_task` (web_app.py lines 72-197): the three validation
gates, then the agent run over the accepted files; recommendations are
written when at least one file was persisted and some analysis accumulated
(agent.py lines 185-198), interview questions when analysis was not skipped
and some analysis accumulated (web_app.py line 168).  The received
`skip_refactoring` flag is never consulted anywhere in the task body. -/
def run_refactoring_task (env : TaskEnv) (source_path output_dir model : String)
    (skip_analysis skip_refactoring : Bool) (delay : Nat) : TaskOutcome :=
  if !env.api_key_ok then
    ⟨"error", some "API key not configured", initialBatchState, false, false⟩
  else if env.source_is_git && !env.clone_ok then
    ⟨"error", some "Failed to clone repository", initialBatchState, false, false⟩
  else if !env.source_valid then
    ⟨"error", some "Invalid source directory", initialBatchState, false, false⟩
  else
    let batch := runBatch env.files
    let wroteRecs := batch.processed_local != 0 && !batch.analysis_results.isEmpty
    let wroteIQ := !skip_analysis && !batch.analysis_results.isEmpty
    ⟨"completed", none, batch, wroteRecs, wroteIQ⟩

/-! ## CLI validation slice (main.py) -/

/-- Outcome of the CLI entry point before the agent runs. -/
inductive CliOutcome where
  | earlyExit (code : Int)
  | ranAgent
deriving DecidableEq

/-- Validation slice of `main` (main.py lines 60-126): the API-key check,
the clone-and-validate checks and the output-directory cleanup are
abstracted as booleans in source order; the conflicting-flags check of
lines 110-112 exits with code 1 before `agent.run()` is reached. -/
def main_decision (api_key_ok source_valid output_cleanup_ok : Bool)
    (skip_analysis skip_refactoring : Bool) : CliOutcome :=
  if !api_key_ok then .earlyExit 1
  else if !source_valid then .earlyExit 1
  else if !output_cleanup_ok then .earlyExit 1
  else if skip_analysis && skip_refactoring then .earlyExit 1
  else .ranAgent

/-! ## Generic lemmas about the list utilities -/

theorem startsWithL_append (p : List Char) :
    ∀ u v, startsWithL p u = true → startsWithL p (u ++ v) = true := by
  induction p with
  | nil => intro u v _; rfl
  | cons x xs ih =>
    intro u v h
    cases u with
    | nil => simp [startsWithL] at h
    | cons c cs =>
      simp only [startsWithL, Bool.and_eq_true] at h ⊢
      exact ⟨h.1, ih cs v h.2⟩

theorem startsWithL_self_append (t v : List Char) :
    startsWithL t (t ++ v) = true := by
  induction t with
  | nil => rfl
  | cons c cs ih => simp [startsWithL, ih]

theorem containsL_of_startsWithL (t s : List Char)
    (h : startsWithL t s = true) : containsL t s = true := by
  cases s with
  | nil => simpa [containsL] using h
  | cons c cs => simp [containsL, h]

theorem containsL_append_left (t u : List Char) :
    ∀ s, containsL t s = true → containsL t (u ++ s) = true := by
  induction u with
  | nil => intro s h; simpa using h
  | cons c u' ih =>
    intro s h
    simp only [List.cons_append, containsL, Bool.or_eq_true]
    exact Or.inr (ih s h)

theorem containsL_append_right (t : List Char) :
    ∀ s v, containsL t s = true → containsL t (s ++ v) = true := by
  intro s
  induction s with
  | nil =>
    intro v h
    simp only [containsL] at h
    cases t with
    | nil =>
      cases v with
      | nil => rfl
      | cons c cs => simp [containsL, startsWithL]
    | cons x xs => simp [startsWithL] at h
  | cons c cs ih =>
    intro v h
    simp only [containsL, Bool.or_eq_true] at h
    rcases h with h | h
    · exact containsL_of_startsWithL _ _ (by
        simpa [List.cons_append] using startsWithL_append t (c :: cs) v h)
    · simp only [List.cons_append, containsL, Bool.or_eq_true]
      exact Or.inr (ih v h)

theorem containsL_cons_false (t : List Char) (c : Char) (cs : List Char)
    (h : containsL t (c :: cs) = false) : containsL t cs = false := by
  simp only [containsL, Bool.or_eq_false_iff] at h
  exact h.2

theorem containsL_drop (t s : List Char) (k : Nat)
    (h : containsL t s = false) : containsL t (s.drop k) = false := by
  by_contra hc
  have hc' : containsL t (s.drop k) = true := by
    cases hcc : containsL t (s.drop k) with
    | false => exact absurd hcc hc
    | true => rfl
  have := containsL_append_left t (s.take k) _ hc'
  rw [List.take_append_drop] at this
  exact absurd this (by simp [h])

theorem dropWhile_ws_append (u v : List Char)
    (h : ∀ x ∈ u, isPySpace x = true) :
    (u ++ v).dropWhile isPySpace = v.dropWhile isPySpace := by
  induction u with
  | nil => rfl
  | cons c u' ih =>
    have hc : isPySpace c = true := h c (by simp)
    simp only [List.cons_append, List.dropWhile_cons, hc, if_true]
    exact ih (fun x hx => h x (by simp [hx]))

theorem pyStripL_ws_append (u v : List Char)
    (h : ∀ x ∈ u, isPySpace x = true) :
    pyStripL (u ++ v) = pyStripL v := by
  unfold pyStripL
  rw [dropWhile_ws_append u v h]

theorem length_dropWhile_le (p : Char → Bool) :
    ∀ l : List Char, (l.dropWhile p).length ≤ l.length := by
  intro l
  induction l with
  | nil => simp
  | cons c cs ih =>
    by_cases hc : p c = true
    · simp only [List.dropWhile_cons, hc, if_true]
      exact Nat.le_trans ih (Nat.le_succ _)
    · simp only [List.dropWhile_cons, hc, if_false]
      simp

theorem dropWhile_dropWhile (p : Char → Bool) :
    ∀ l : List Char, (l.dropWhile p).dropWhile p = l.dropWhile p := by
  intro l
  induction l with
  | nil => rfl
  | cons c cs ih =>
    by_cases hc : p c = true
    · simp only [List.dropWhile_cons, hc, if_true]; exact ih
    · simp only [List.dropWhile_cons, hc, if_false]
      simp [List.dropWhile_cons, hc]

theorem dropWhile_prefix_self (p : Char → Bool) (a b : List Char)
    (h : (a ++ b).dropWhile p = a ++ b) : a.dropWhile p = a := by
  cases a with
  | nil => rfl
  | cons c a' =>
    by_cases hc : p c = true
    · exfalso
      rw [List.cons_append, List.dropWhile_cons, if_pos hc] at h
      have hle := length_dropWhile_le p (a' ++ b)
      rw [h] at hle
      simp [List.length_append] at hle
    · simp [List.dropWhile_cons, hc]

theorem pyStripL_decomp (s : List Char) :
    s.dropWhile isPySpace =
      pyStripL s ++ ((s.dropWhile isPySpace).reverse.takeWhile isPySpace).reverse := by
  unfold pyStripL
  have h := List.takeWhile_append_dropWhile (p := isPySpace)
    (l := (s.dropWhile isPySpace).reverse)
  calc s.dropWhile isPySpace
      = (s.dropWhile isPySpace).reverse.reverse := by rw [List.reverse_reverse]
    _ = ((s.dropWhile isPySpace).reverse.takeWhile isPySpace ++
          (s.dropWhile isPySpace).reverse.dropWhile isPySpace).reverse := by rw [h]
    _ = _ := by rw [List.reverse_append]

theorem pyStripL_idem (s : List Char) : pyStripL (pyStripL s) = pyStripL s := by
  have hstep1 : (pyStripL s).dropWhile isPySpace = pyStripL s := by
    apply dropWhile_prefix_self isPySpace (pyStripL s)
      ((s.dropWhile isPySpace).reverse.takeWhile isPySpace).reverse
    rw [← pyStripL_decomp s]
    exact dropWhile_dropWhile isPySpace s
  have hstep2 : (pyStripL s).reverse.dropWhile isPySpace = (pyStripL s).reverse := by
    simp only [pyStripL, List.reverse_reverse]
    exact dropWhile_dropWhile isPySpace _
  show (((pyStripL s).dropWhile isPySpace).reverse.dropWhile isPySpace).reverse = _
  rw [hstep1, hstep2, List.reverse_reverse]

theorem containsL_pyStripL (t s : List Char)
    (h : containsL t s = false) : containsL t (pyStripL s) = false := by
  by_contra hc
  have hc' : containsL t (pyStripL s) = true := by
    cases hcc : containsL t (pyStripL s) with
    | false => exact absurd hcc hc
    | true => rfl
  have h1 : containsL t (s.dropWhile isPySpace) = true := by
    rw [pyStripL_decomp s]
    exact containsL_append_right t _ _ hc'
  have h2 : containsL t s = true := by
    have := containsL_append_left t (s.takeWhile isPySpace) _ h1
    rwa [List.takeWhile_append_dropWhile] at this
  exact absurd h2 (by simp [h])

/-! ## Lemmas about the strict fence pattern matcher -/

theorem startsWithL_bt3_elim (s : List Char)
    (h : startsWithL bt3 s = true) : ∃ t, s = '`' :: '`' :: '`' :: t := by
  match s with
  | [] => simp [bt3, startsWithL] at h
  | [c] => simp [bt3, startsWithL] at h
  | [c, d] => simp [bt3, startsWithL] at h
  | c :: d :: e :: t =>
    simp only [bt3, startsWithL, Bool.and_eq_true] at h
    obtain ⟨h1, h2, h3, _⟩ := h
    exact ⟨t, by rw [← eq_of_beq h1, ← eq_of_beq h2, ← eq_of_beq h3]⟩

theorem no_bt3_prefix (u w : List Char)
    (h : containsL bt3 u = false) :
    startsWithL bt3 (u ++ '\n' :: w) = false := by
  by_contra hc
  have hc' : startsWithL bt3 (u ++ '\n' :: w) = true := by
    cases hcc : startsWithL bt3 (u ++ '\n' :: w) with
    | false => exact absurd hcc hc
    | true => rfl
  obtain ⟨t, ht⟩ := startsWithL_bt3_elim _ hc'
  rcases u with _ | ⟨d, _ | ⟨e, _ | ⟨f, u'⟩⟩⟩
  · rw [List.nil_append] at ht
    injection ht with h1 _
    exact absurd h1 (by decide)
  · rw [List.cons_append, List.nil_append] at ht
    injection ht with _ ht2
    injection ht2 with h2 _
    exact absurd h2 (by decide)
  · simp only [List.cons_append, List.nil_append] at ht
    injection ht with _ ht2
    injection ht2 with _ ht3
    injection ht3 with h3 _
    exact absurd h3 (by decide)
  · simp only [List.cons_append] at ht
    injection ht with h1 ht2
    injection ht2 with h2 ht3
    injection ht3 with h3 _
    subst h1; subst h2; subst h3
    have hcon : containsL bt3 ('`' :: '`' :: '`' :: u') = true :=
      containsL_of_startsWithL _ _ (by simp [bt3, startsWithL])
    rw [hcon] at h
    exact Bool.noConfusion h

theorem capTo_no_fence (z : List Char) :
    ∀ u, containsL bt3 u = false →
      capTo nl3bt (u ++ nl3bt ++ z) = some u := by
  intro u
  induction u with
  | nil =>
    intro _
    have hs : startsWithL nl3bt (nl3bt ++ z) = true := startsWithL_self_append _ _
    show capTo nl3bt ('\n' :: ('`' :: '`' :: '`' :: z)) = some []
    have hs' : startsWithL nl3bt ('\n' :: ('`' :: '`' :: '`' :: z)) = true := hs
    simp [capTo, hs']
  | cons c u' ih =>
    intro h
    have h' : containsL bt3 u' = false := containsL_cons_false _ _ _ h
    have hcond : startsWithL nl3bt (c :: (u' ++ nl3bt ++ z)) = false := by
      cases hc : ('\n' == c) with
      | false => simp only [nl3bt, startsWithL, hc, Bool.false_and]
      | true =>
        have hce : '\n' = c := eq_of_beq hc
        subst hce
        have hsw : startsWithL bt3 (u' ++ '\n' :: ('`' :: '`' :: '`' :: z)) = false :=
          no_bt3_prefix u' ('`' :: '`' :: '`' :: z) h'
        simp only [nl3bt, startsWithL, hc, Bool.true_and]
        simpa [bt3, List.append_assoc] using hsw
    show capTo nl3bt (c :: (u' ++ nl3bt ++ z)) = some (c :: u')
    simp only [capTo, hcond, cond_false]
    rw [ih h']
    rfl

theorem takeWhile_mem_holds (p : Char → Bool) :
    ∀ (l : List Char) (x : Char), x ∈ l.takeWhile p → p x = true := by
  intro l
  induction l with
  | nil => intro x hx; simp [List.takeWhile] at hx
  | cons c cs ih =>
    intro x hx
    by_cases hc : p c = true
    · rw [List.takeWhile_cons, if_pos hc] at hx
      rcases List.mem_cons.mp hx with h | h
      · rwa [h]
      · exact ih x h
    · rw [List.takeWhile_cons, if_neg hc] at hx
      simp at hx

theorem dropWhile_cons_not (p : Char → Bool) :
    ∀ (l : List Char) (c : Char) (t : List Char),
      l.dropWhile p = c :: t → p c = false := by
  intro l
  induction l with
  | nil => intro c t h; simp [List.dropWhile] at h
  | cons a l' ih =>
    intro c t h
    by_cases ha : p a = true
    · rw [List.dropWhile_cons, if_pos ha] at h
      exact ih c t h
    · rw [List.dropWhile_cons, if_neg ha] at h
      injection h with h1 _
      rw [← h1]
      simpa using ha

theorem wsPrefixLen_append_nonws (c : Char) (y : List Char)
    (hc : isPySpace c = false) :
    ∀ w, (∀ x ∈ w, isPySpace x = true) →
      wsPrefixLen (w ++ c :: y) = w.length := by
  intro w
  induction w with
  | nil =>
    intro _
    simp only [List.nil_append, wsPrefixLen, hc, cond_false, List.length_nil]
  | cons a w' ih =>
    intro h
    have ha : isPySpace a = true := h a (by simp)
    simp only [List.cons_append, wsPrefixLen, ha, cond_true, List.length_cons]
    exact congrArg (fun n => n + 1) (ih (fun x hx => h x (by simp [hx])))

theorem fenceTail_strip (Ad z cap : List Char) (k : Nat)
    (hA : containsL bt3 Ad = false)
    (hws : ∀ x ∈ Ad.take k, isPySpace x = true)
    (hk : k < Ad.length)
    (h : fenceTail (Ad.drop k ++ nl3bt ++ z) = some cap) :
    pyStripL cap = pyStripL Ad := by
  cases hD : Ad.drop k with
  | nil =>
    exfalso
    have := List.drop_eq_nil_iff.mp hD
    omega
  | cons c t =>
    rw [hD] at h
    simp only [List.cons_append] at h
    show pyStripL cap = pyStripL Ad
    cases hc : (c == '\n') with
    | false =>
      exfalso
      rw [show fenceTail (c :: (t ++ nl3bt ++ z)) =
          bif c == '\n' then capTo nl3bt (t ++ nl3bt ++ z) else none from rfl,
        hc, cond_false] at h
      exact Option.noConfusion h
    | true =>
      have hce : c = '\n' := eq_of_beq hc
      rw [show fenceTail (c :: (t ++ nl3bt ++ z)) =
          bif c == '\n' then capTo nl3bt (t ++ nl3bt ++ z) else none from rfl,
        hc, cond_true] at h
      have ht : containsL bt3 t = false := by
        have h1 : containsL bt3 (Ad.drop k) = false := containsL_drop bt3 Ad k hA
        rw [hD] at h1
        exact containsL_cons_false _ _ _ h1
      rw [capTo_no_fence z t ht] at h
      injection h with hcap
      subst hcap
      have hAdec : Ad = Ad.take k ++ '\n' :: t := by
        conv_lhs => rw [← List.take_append_drop k Ad]
        rw [hD, hce]
      conv_rhs => rw [hAdec]
      have h1 : pyStripL (Ad.take k ++ '\n' :: t) = pyStripL ('\n' :: t) :=
        pyStripL_ws_append _ _ hws
      have h2 : pyStripL ('\n' :: t) = pyStripL t := by
        have := pyStripL_ws_append ['\n'] t
          (by intro x hx; simp at hx; simp [hx, isPySpace])
        simpa using this
      rw [h1, h2]

theorem tryWS_descend (Ad z : List Char) (W : Nat)
    (hA : containsL bt3 Ad = false)
    (hW : W < Ad.length)
    (hws : ∀ x ∈ Ad.take W, isPySpace x = true) :
    ∀ b, b ≤ W + 1 →
      ∃ cap, tryWS ('\n' :: (Ad ++ nl3bt ++ z)) b = some cap ∧
        pyStripL cap = pyStripL Ad := by
  intro b
  induction b with
  | zero =>
    intro _
    refine ⟨Ad, ?_, rfl⟩
    show fenceTail ('\n' :: (Ad ++ nl3bt ++ z)) = some Ad
    rw [show fenceTail ('\n' :: (Ad ++ nl3bt ++ z)) =
        bif '\n' == '\n' then capTo nl3bt (Ad ++ nl3bt ++ z) else none from rfl]
    simp only [cond_true, beq_self_eq_true]
    exact capTo_no_fence z Ad hA
  | succ b ih =>
    intro hb
    have hdrop : ('\n' :: (Ad ++ nl3bt ++ z)).drop (b + 1) =
        Ad.drop b ++ nl3bt ++ z := by
      rw [List.drop_succ_cons, List.append_assoc, List.drop_append_eq_append_drop]
      have hb0 : b - Ad.length = 0 := by omega
      rw [hb0]
      simp [List.append_assoc]
    cases hft : fenceTail (Ad.drop b ++ nl3bt ++ z) with
    | none =>
      have step : tryWS ('\n' :: (Ad ++ nl3bt ++ z)) (b + 1) =
          tryWS ('\n' :: (Ad ++ nl3bt ++ z)) b := by
        simp only [tryWS, hdrop, hft]
      obtain ⟨cap, h1, h2⟩ := ih (by omega)
      exact ⟨cap, by rw [step, h1], h2⟩
    | some cap =>
      have step : tryWS ('\n' :: (Ad ++ nl3bt ++ z)) (b + 1) = some cap := by
        simp only [tryWS, hdrop, hft]
      refine ⟨cap, step, ?_⟩
      refine fenceTail_strip Ad z cap b hA ?_ (by omega) hft
      intro x hx
      have heq : (Ad.take W).take b = Ad.take b := by
        rw [List.take_take, Nat.min_eq_left (by omega)]
      rw [← heq] at hx
      exact hws x ((List.take_sublist _ _).subset hx)

/-! ## Extraction on fence-free and fence-headed inputs -/

theorem search1_eq_none (s : List Char) (h : containsL bt3 s = false) :
    search1 s = none := by
  induction s with
  | nil => rfl
  | cons c cs ih =>
    have h1 : startsWithL bt3 (c :: cs) = false := by
      have h' := h
      simp only [containsL, Bool.or_eq_false_iff] at h'
      exact h'.1
    have h2 : containsL bt3 cs = false := containsL_cons_false _ _ _ h
    simp only [search1, h1, cond_false]
    exact ih h2

theorem search2_eq_none (s : List Char) (h : containsL bt3 s = false) :
    search2 s = none := by
  induction s with
  | nil => rfl
  | cons c cs ih =>
    have h1 : startsWithL bt3 (c :: cs) = false := by
      have h' := h
      simp only [containsL, Bool.or_eq_false_iff] at h'
      exact h'.1
    have h2 : containsL bt3 cs = false := containsL_cons_false _ _ _ h
    simp only [search2, h1, cond_false]
    exact ih h2

theorem extractL_idem_no_fence (s : List Char)
    (hf : containsL bt3 s = false)
    (h1 : startsWithL errMark s = false)
    (h2 : startsWithL errMark (pyStripL s) = false) :
    extractL (extractL s) = extractL s := by
  have hs1 := search1_eq_none s hf
  have hs2 := search2_eq_none s hf
  cases s with
  | nil => rfl
  | cons c cs =>
    have hval : extractL (c :: cs) = pyStripL (c :: cs) := by
      simp only [extractL, List.isEmpty_cons, h1, Bool.false_or, cond_false]
      rw [hs1, hs2]
    rw [hval]
    have hf' : containsL bt3 (pyStripL (c :: cs)) = false :=
      containsL_pyStripL _ _ hf
    have hsp1 := search1_eq_none _ hf'
    have hsp2 := search2_eq_none _ hf'
    cases hps : pyStripL (c :: cs) with
    | nil => rfl
    | cons d ds =>
      rw [hps] at h2 hsp1 hsp2
      have hval2 : extractL (d :: ds) = pyStripL (d :: ds) := by
        simp only [extractL, List.isEmpty_cons, h2, Bool.false_or, cond_false]
        rw [hsp1, hsp2]
      rw [hval2, ← hps]
      exact pyStripL_idem _

theorem search1_fence_head (T : List Char) :
    search1 ('`' :: '`' :: '`' :: '\n' :: T) =
      match tryWS ('\n' :: T) (wsPrefixLen T + 1) with
      | some cap => some cap
      | none => search1 ('`' :: '`' :: '\n' :: T) := rfl

theorem extractL_fence_head (T : List Char) :
    extractL ('`' :: '`' :: '`' :: '\n' :: T) =
      match search1 ('`' :: '`' :: '`' :: '\n' :: T) with
      | some cap => pyStripL cap
      | none =>
        match search2 ('`' :: '`' :: '`' :: '\n' :: T) with
        | some cap => pyStripL cap
        | none => pyStripL ('`' :: '`' :: '`' :: '\n' :: T) := rfl

theorem take_takeWhile_length (p : Char → Bool) :
    ∀ l : List Char, l.take (l.takeWhile p).length = l.takeWhile p := by
  intro l
  induction l with
  | nil => rfl
  | cons c cs ih =>
    by_cases hc : p c = true
    · rw [List.takeWhile_cons, if_pos hc, List.length_cons, List.take_succ_cons, ih]
    · rw [List.takeWhile_cons, if_neg hc]
      rfl

/-- Claim C5 (amended): for every response formed of two well-formed fenced
blocks with interiors `A` then `B`, where `A` contains at least one
non-whitespace character and no fence sequence, `extract_code_from_markdown`
returns the trimmed interior `A` of the first block; the later block `B` is
ignored (it is unconstrained here).  The amendment excludes first interiors
that are empty or all whitespace: on those the code merges the two fences and
returns a backtick string instead (see the counterexample). -/
theorem claim_C5_amended (A B : String)
    (hr : A.data.dropWhile isPySpace ≠ [])
    (hA : containsL bt3 A.data = false) :
    extract_code_from_markdown
      ("```\n" ++ A ++ "\n```\n```\n" ++ B ++ "\n```") = pyStrip A := by
  obtain ⟨rh, rt, hrt⟩ : ∃ rh rt, A.data.dropWhile isPySpace = rh :: rt := by
    cases hD : A.data.dropWhile isPySpace with
    | nil => exact absurd hD hr
    | cons rh rt => exact ⟨rh, rt, rfl⟩
  have hsplit : A.data = (A.data.takeWhile isPySpace) ++ (rh :: rt) := by
    rw [← hrt, List.takeWhile_append_dropWhile]
  have hrh : isPySpace rh = false := dropWhile_cons_not isPySpace A.data rh rt hrt
  have hwmem : ∀ x ∈ A.data.takeWhile isPySpace, isPySpace x = true :=
    fun x hx => takeWhile_mem_holds isPySpace A.data x hx
  have hW : (A.data.takeWhile isPySpace).length < A.data.length := by
    have h0 : (A.data.takeWhile isPySpace ++ A.data.dropWhile isPySpace).length =
        A.data.length := by
      rw [List.takeWhile_append_dropWhile]
    rw [List.length_append, hrt, List.length_cons] at h0
    omega
  have hws : ∀ x ∈ A.data.take (A.data.takeWhile isPySpace).length,
      isPySpace x = true := by
    intro x hx
    rw [take_takeWhile_length] at hx
    exact hwmem x hx
  have hWT : wsPrefixLen (A.data ++ nl3bt ++
      ('\n' :: '`' :: '`' :: '`' :: '\n' :: (B.data ++ nl3bt))) =
      (A.data.takeWhile isPySpace).length := by
    conv_lhs => rw [hsplit]
    have hre : (((A.data.takeWhile isPySpace) ++ (rh :: rt)) ++ nl3bt) ++
        ('\n' :: '`' :: '`' :: '`' :: '\n' :: (B.data ++ nl3bt)) =
        (A.data.takeWhile isPySpace) ++ rh :: ((rt ++ nl3bt) ++
          ('\n' :: '`' :: '`' :: '`' :: '\n' :: (B.data ++ nl3bt))) := by
      simp [List.append_assoc]
    rw [hre]
    exact wsPrefixLen_append_nonws rh _ hrh _ hwmem
  obtain ⟨cap, hcap, hstrip⟩ :=
    tryWS_descend A.data ('\n' :: '`' :: '`' :: '`' :: '\n' :: (B.data ++ nl3bt))
      (A.data.takeWhile isPySpace).length hA hW hws
      ((A.data.takeWhile isPySpace).length + 1) le_rfl
  have hdata : ("```\n" ++ A ++ "\n```\n```\n" ++ B ++ "\n```").data =
      '`' :: '`' :: '`' :: '\n' :: (A.data ++ nl3bt ++
        ('\n' :: '`' :: '`' :: '`' :: '\n' :: (B.data ++ nl3bt))) := by
    have e : ∀ a b : String, (a ++ b).data = a.data ++ b.data := fun _ _ => rfl
    rw [e, e, e, e]
    have d1 : ("```\n" : String).data = ['`', '`', '`', '\n'] := rfl
    have d2 : ("\n```\n```\n" : String).data =
        ['\n', '`', '`', '`', '\n', '`', '`', '`', '\n'] := rfl
    have d3 : ("\n```" : String).data = ['\n', '`', '`', '`'] := rfl
    rw [d1, d2, d3]
    simp [nl3bt, List.append_assoc]
  have hs1 : search1 ('`' :: '`' :: '`' :: '\n' :: (A.data ++ nl3bt ++
      ('\n' :: '`' :: '`' :: '`' :: '\n' :: (B.data ++ nl3bt)))) = some cap := by
    rw [search1_fence_head, hWT, hcap]
  show (⟨extractL ("```\n" ++ A ++ "\n```\n```\n" ++ B ++ "\n```").data⟩ : String) =
    ⟨pyStripL A.data⟩
  have hlist : extractL ("```\n" ++ A ++ "\n```\n```\n" ++ B ++ "\n```").data =
      pyStripL A.data := by
    rw [hdata, extractL_fence_head, hs1]
    exact hstrip
  rw [hlist]

/-! ## Lemmas about the Resilient Call Invoker -/

theorem callLoop_calls_le (oracle : Nat → AttemptResult) (mr : Nat) :
    ∀ fuel attempt, (callLoop oracle mr attempt fuel).calls ≤ fuel := by
  intro fuel
  induction fuel with
  | zero => intro attempt; simp [callLoop]
  | succ f ih =>
    intro attempt
    cases h : oracle attempt with
    | response sb text =>
      cases sb with
      | true =>
        by_cases hl : attempt = mr - 1
        · simp [callLoop, h, if_pos hl]
        · simp only [callLoop, h, if_neg hl]
          have := ih (attempt + 1)
          omega
      | false => simp [callLoop, h]
    | raises msg =>
      by_cases hq : isQuotaRate msg = true
      · simp only [callLoop, h, if_pos hq]
        have := ih (attempt + 1)
        omega
      · by_cases hlt : attempt < mr - 1
        · simp only [callLoop, h, if_neg hq, if_pos hlt]
          have := ih (attempt + 1)
          omega
        · simp only [callLoop, h, if_neg hq, if_neg hlt]
          omega

theorem callLoop_all_fail_error (oracle : Nat → AttemptResult) (mr : Nat) :
    ∀ fuel attempt,
      (∀ i, attempt ≤ i → i < attempt + fuel → isOk (oracle i) = false) →
      startsWithL errMark (callLoop oracle mr attempt fuel).result.data = true := by
  intro fuel
  induction fuel with
  | zero =>
    intro attempt _
    simp only [callLoop]
    decide
  | succ f ih =>
    intro attempt hall
    cases h : oracle attempt with
    | response sb text =>
      cases sb with
      | false =>
        have := hall attempt (Nat.le_refl _) (by omega)
        rw [h] at this
        simp [isOk] at this
      | true =>
        by_cases hl : attempt = mr - 1
        · simp only [callLoop, h, if_pos hl]
          decide
        · simp only [callLoop, h, if_neg hl]
          exact ih (attempt + 1) (fun i h1 h2 => hall i (by omega) (by omega))
    | raises msg =>
      by_cases hq : isQuotaRate msg = true
      · simp only [callLoop, h, if_pos hq]
        exact ih (attempt + 1) (fun i h1 h2 => hall i (by omega) (by omega))
      · by_cases hlt : attempt < mr - 1
        · simp only [callLoop, h, if_neg hq, if_pos hlt]
          exact ih (attempt + 1) (fun i h1 h2 => hall i (by omega) (by omega))
        · simp only [callLoop, h, if_neg hq, if_neg hlt]
          have hpre : startsWithL errMark
              ("Error: Could not get a response from the API after " : String).data =
              true := by decide
          have e : ∀ a b : String, (a ++ b).data = a.data ++ b.data := fun _ _ => rfl
          rw [e, e, e]
          have h1 := startsWithL_append errMark _ ((toString mr).data) hpre
          have h2 := startsWithL_append errMark _ ((" attempts. Last error: " : String).data) h1
          exact startsWithL_append errMark _ (msg.data) h2

theorem callLoop_exhaust_result (oracle : Nat → AttemptResult) (mr : Nat)
    (msg : String) (hqr : isQuotaRate msg = false) :
    ∀ fuel attempt, 1 ≤ fuel → attempt + fuel = mr →
      (∀ i, attempt ≤ i → i < mr → ∃ m, oracle i = .raises m) →
      oracle (mr - 1) = .raises msg →
      (callLoop oracle mr attempt fuel).result =
        "Error: Could not get a response from the API after " ++ toString mr ++
          " attempts. Last error: " ++ msg := by
  intro fuel
  induction fuel with
  | zero =>
    intro attempt h0
    omega
  | succ f ih =>
    intro attempt hf1 hsum hall hlast
    cases f with
    | zero =>
      have ha : attempt = mr - 1 := by omega
      have horc : oracle attempt = .raises msg := by rw [ha]; exact hlast
      simp only [callLoop, horc, if_neg (by simp [hqr] : ¬ isQuotaRate msg = true),
        if_neg (by omega : ¬ attempt < mr - 1)]
    | succ f' =>
      have hlt : attempt < mr - 1 := by omega
      obtain ⟨m, hm⟩ := hall attempt (Nat.le_refl _) (by omega)
      by_cases hq : isQuotaRate m = true
      · simp only [callLoop, hm, if_pos hq]
        exact ih (attempt + 1) (by omega) (by omega)
          (fun i hi1 hi2 => hall i (by omega) hi2) hlast
      · simp only [callLoop, hm, if_neg hq, if_pos hlt]
        exact ih (attempt + 1) (by omega) (by omega)
          (fun i hi1 hi2 => hall i (by omega) hi2) hlast

theorem callLoop_sleeps_lb (oracle : Nat → AttemptResult) (mr : Nat) :
    ∀ fuel attempt p, p ∈ (callLoop oracle mr attempt fuel).sleeps →
      attempt ≤ p.1 := by
  intro fuel
  induction fuel with
  | zero => intro attempt p hp; simp [callLoop] at hp
  | succ f ih =>
    intro attempt p hp
    cases h : oracle attempt with
    | response sb text =>
      cases sb with
      | false => simp [callLoop, h] at hp
      | true =>
        by_cases hl : attempt = mr - 1
        · simp [callLoop, h, if_pos hl] at hp
        · simp only [callLoop, h, if_neg hl] at hp
          have := ih (attempt + 1) p hp
          omega
    | raises msg =>
      by_cases hq : isQuotaRate msg = true
      · simp only [callLoop, h, if_pos hq] at hp
        rcases List.mem_cons.mp hp with he | ht
        · rw [he]
        · have := ih (attempt + 1) p ht
          omega
      · by_cases hlt : attempt < mr - 1
        · simp only [callLoop, h, if_neg hq, if_pos hlt] at hp
          rcases List.mem_cons.mp hp with he | ht
          · rw [he]
          · have := ih (attempt + 1) p ht
            omega
        · simp [callLoop, h, if_neg hq, if_neg hlt] at hp

theorem filter_fst_eq_nil (i : Nat) :
    ∀ l : List (Nat × Nat), (∀ p ∈ l, i < p.1) →
      l.filter (fun p => p.1 == i) = [] := by
  intro l
  induction l with
  | nil => intro _; rfl
  | cons q l' ih =>
    intro h
    have hq : (q.1 == i) = false := by
      have := h q (by simp)
      simp only [beq_eq_false_iff_ne, ne_eq]
      omega
    rw [List.filter_cons]
    simp only [hq, Bool.false_eq_true, if_false]
    exact ih (fun p hp => h p (by simp [hp]))

theorem callLoop_sleep_filter (oracle : Nat → AttemptResult) (mr : Nat) :
    ∀ fuel attempt i msg, attempt + fuel = mr → attempt ≤ i →
      i < attempt + (callLoop oracle mr attempt fuel).calls →
      oracle i = .raises msg →
      (callLoop oracle mr attempt fuel).sleeps.filter (fun p => p.1 == i) =
        (if isQuotaRate msg = true then [(i, 60)]
         else if i < mr - 1 then [(i, (i + 1) * 2)] else []) := by
  intro fuel
  induction fuel with
  | zero =>
    intro attempt i msg _ hle hlt _
    simp only [callLoop] at hlt
    omega
  | succ f ih =>
    intro attempt i msg hsum hle hlt horacle
    cases h : oracle attempt with
    | response sb text =>
      cases sb with
      | false =>
        have hia : i = attempt := by
          simp only [callLoop, h] at hlt
          omega
        rw [hia, h] at horacle
        simp at horacle
      | true =>
        by_cases hl : attempt = mr - 1
        · have hia : i = attempt := by
            simp only [callLoop, h, if_pos hl] at hlt
            omega
          rw [hia, h] at horacle
          simp at horacle
        · by_cases hia : i = attempt
          · rw [hia, h] at horacle
            simp at horacle
          · simp only [callLoop, h, if_neg hl] at hlt ⊢
            exact ih (attempt + 1) i msg (by omega) (by omega) (by omega) horacle
    | raises m =>
      by_cases hq : isQuotaRate m = true
      · by_cases hia : i = attempt
        · subst hia
          rw [h] at horacle
          injection horacle with hmm
          subst hmm
          simp only [callLoop, h, if_pos hq, if_pos hq]
          rw [List.filter_cons]
          simp only [beq_self_eq_true, if_true]
          rw [filter_fst_eq_nil i _ (fun p hp => by
            have := callLoop_sleeps_lb oracle mr f (i + 1) p hp
            omega)]
        · simp only [callLoop, h, if_pos hq] at hlt ⊢
          rw [List.filter_cons]
          have hne : ((attempt, 60).1 == i) = false := by
            simp only [beq_eq_false_iff_ne, ne_eq]
            omega
          simp only [hne, Bool.false_eq_true, if_false]
          exact ih (attempt + 1) i msg (by omega) (by omega) (by omega) horacle
      · by_cases hlt2 : attempt < mr - 1
        · by_cases hia : i = attempt
          · subst hia
            rw [h] at horacle
            injection horacle with hmm
            subst hmm
            simp only [callLoop, h, if_neg hq, if_pos hlt2]
            rw [List.filter_cons]
            simp only [beq_self_eq_true, if_true]
            rw [filter_fst_eq_nil i _ (fun p hp => by
              have := callLoop_sleeps_lb oracle mr f (i + 1) p hp
              omega)]
          · simp only [callLoop, h, if_neg hq, if_pos hlt2] at hlt ⊢
            rw [List.filter_cons]
            have hne : ((attempt, (attempt + 1) * 2).1 == i) = false := by
              simp only [beq_eq_false_iff_ne, ne_eq]
              omega
            simp only [hne, Bool.false_eq_true, if_false]
            exact ih (attempt + 1) i msg (by omega) (by omega) (by omega) horacle
        · have hia : i = attempt := by
            simp only [callLoop, h, if_neg hq, if_neg hlt2] at hlt
            omega
          subst hia
          rw [h] at horacle
          injection horacle with hmm
          subst hmm
          simp only [callLoop, h, if_neg hq, if_neg hlt2]
          rfl

/-! ## Claim theorems -/

/-- Claim C5, counterexample: the response "```\n \n```\n```\nB\n```"
contains two well-formed fenced blocks with interiors " " then "B", so the
claim demands the trimmed first interior, the empty string; the code instead
returns "```" (the lazy capture crosses the first closing and second opening
fence). -/
theorem claim_C5_counterexample :
    extract_code_from_markdown "```\n \n```\n```\nB\n```" = "```" ∧
    extract_code_from_markdown "```\n \n```\n```\nB\n```" ≠ pyStrip " " := by
  constructor
  · decide
  · decide

/-- Claim C5, witness for the amended theorem at a concrete two-block
response. -/
theorem claim_C5_witness :
    extract_code_from_markdown "```\ncode\n```\n```\nother\n```" = "code" := by
  have h := claim_C5_amended "code" "other" (by decide) (by decide)
  have e1 : ("```\n" ++ "code" ++ "\n```\n```\n" ++ "other" ++ "\n```" : String) =
      "```\ncode\n```\n```\nother\n```" := by decide
  have e2 : pyStrip "code" = "code" := by decide
  rw [e1, e2] at h
  exact h

/-- Claim C6 (amended): for every text containing no fence markers, where
neither the text nor its whitespace-stripped form begins with the error
marker "Error:", extraction is idempotent:
`extract(extract(x)) = extract(x)`.  The amendment excludes texts whose
stripped form begins with "Error:": there the first extraction returns the
stripped text and the second maps it to the empty string (see the
counterexample). -/
theorem claim_C6_amended (x : String)
    (hf : containsL bt3 x.data = false)
    (h1 : startsWithL errMark x.data = false)
    (h2 : startsWithL errMark (pyStripL x.data) = false) :
    extract_code_from_markdown (extract_code_from_markdown x) =
      extract_code_from_markdown x :=
  congrArg String.mk (extractL_idem_no_fence x.data hf h1 h2)

/-- Claim C6, counterexample: " Error: x" contains no fence marker, yet
extraction is not idempotent on it: the first pass strips it to "Error: x",
and the second pass maps that to "" because of the error sentinel. -/
theorem claim_C6_counterexample :
    containsL bt3 (" Error: x".data) = false ∧
    extract_code_from_markdown (extract_code_from_markdown " Error: x") ≠
      extract_code_from_markdown " Error: x" := by
  constructor
  · decide
  · decide

/-- Claim C6, witness for the amended theorem at a concrete fence-free
text. -/
theorem claim_C6_witness :
    extract_code_from_markdown (extract_code_from_markdown "hello world") =
      extract_code_from_markdown "hello world" :=
  claim_C6_amended "hello world" (by decide) (by decide) (by decide)

/-- Claim C1: for every file path, every non-empty original content and
every text the remote call may return, `refactor_code` returns a non-empty
output; and whenever the extracted payload is empty or begins with "Error:",
the output is the original content unchanged.  (The ceiling is the
configured `MAX_FILE_SIZE_FOR_REFACTORING`, universally quantified here
because it is an environment override.) -/
theorem claim_C1_fallback_safety (max_refactor_size : Nat)
    (file_path content api_response : String) (hc : content ≠ "") :
    (refactor_code max_refactor_size file_path content api_response).output ≠ "" ∧
    (((extract_code_from_markdown api_response).data.isEmpty ||
        startsWithL errMark (extract_code_from_markdown api_response).data) = true →
      (refactor_code max_refactor_size file_path content api_response).output =
        content) := by
  have hval : refactor_code max_refactor_size file_path content api_response =
      if content.length > max_refactor_size then ⟨content, false⟩
      else if ((extract_code_from_markdown api_response).data.isEmpty ||
          startsWithL errMark (extract_code_from_markdown api_response).data) then
        ⟨content, true⟩
      else ⟨extract_code_from_markdown api_response, true⟩ := rfl
  rw [hval]
  by_cases hsz : content.length > max_refactor_size
  · rw [if_pos hsz]
    exact ⟨hc, fun _ => rfl⟩
  · rw [if_neg hsz]
    by_cases hbad : ((extract_code_from_markdown api_response).data.isEmpty ||
        startsWithL errMark (extract_code_from_markdown api_response).data) = true
    · rw [if_pos hbad]
      exact ⟨hc, fun _ => rfl⟩
    · rw [if_neg hbad]
      refine ⟨?_, fun hcontra => absurd hcontra hbad⟩
      intro he
      apply hbad
      have he' : extract_code_from_markdown api_response = "" := he
      rw [he']
      rfl

/-- Claim C1, witness at a concrete non-empty content and a well-fenced
response. -/
theorem claim_C1_witness :
    (refactor_code 15000 "a.py" "x" "```\ny\n```").output ≠ "" :=
  (claim_C1_fallback_safety 15000 "a.py" "x" "```\ny\n```" (by decide)).1

/-- Claim C7: for every file whose content length exceeds the refactor
ceiling, `refactor_code` issues no remote call and returns the original
content unchanged, so the persisted output equals the input. -/
theorem claim_C7_oversized (max_refactor_size : Nat)
    (file_path content api_response : String)
    (h : content.length > max_refactor_size) :
    (refactor_code max_refactor_size file_path content api_response).output =
      content ∧
    (refactor_code max_refactor_size file_path content api_response).apiCalled =
      false := by
  have hval : refactor_code max_refactor_size file_path content api_response =
      if content.length > max_refactor_size then ⟨content, false⟩
      else if ((extract_code_from_markdown api_response).data.isEmpty ||
          startsWithL errMark (extract_code_from_markdown api_response).data) then
        ⟨content, true⟩
      else ⟨extract_code_from_markdown api_response, true⟩ := rfl
  rw [hval, if_pos h]
  exact ⟨rfl, rfl⟩

/-- Claim C7, witness: a 15001-character file exceeds the default 15000
ceiling and is passed through untouched with no remote call. -/
theorem claim_C7_witness :
    (refactor_code MAX_FILE_SIZE_FOR_REFACTORING "big.py"
        (⟨List.replicate 15001 'a'⟩ : String) "resp").output =
      (⟨List.replicate 15001 'a'⟩ : String) ∧
    (refactor_code MAX_FILE_SIZE_FOR_REFACTORING "big.py"
        (⟨List.replicate 15001 'a'⟩ : String) "resp").apiCalled = false := by
  apply claim_C7_oversized
  have hlen : (⟨List.replicate 15001 'a'⟩ : String).length = 15001 := by
    show (List.replicate 15001 'a').length = 15001
    rw [List.length_replicate]
  rw [hlen]
  decide

/-- Claim C2: for every per-attempt oracle and every `max_attempts ≥ 1`, the
invoker issues at most `max_attempts` underlying calls, and when every
attempt fails (raises, or is safety-blocked) the returned string is prefixed
with the marker "Error:".  The invoker is a total function of the oracle,
which models that it never raises to its caller: every Python path is inside
the try/except and every handler returns a string. -/
theorem claim_C2_retry_bound (oracle : Nat → AttemptResult) (max_attempts : Nat)
    (hmax : 1 ≤ max_attempts) :
    (_call_gemini_api oracle max_attempts).calls ≤ max_attempts ∧
    ((∀ i, i < max_attempts → isOk (oracle i) = false) →
      startsWithL errMark
        (_call_gemini_api oracle max_attempts).result.data = true) := by
  constructor
  · exact callLoop_calls_le oracle max_attempts max_attempts 0
  · intro hall
    exact callLoop_all_fail_error oracle max_attempts max_attempts 0
      (fun i _ hi2 => hall i (by omega))

/-- Claim C2, witness: a single always-raising attempt. -/
theorem claim_C2_witness :
    (_call_gemini_api (fun _ => AttemptResult.raises "boom") 1).calls ≤ 1 ∧
    startsWithL errMark
      ((_call_gemini_api (fun _ => AttemptResult.raises "boom") 1).result.data) =
      true := by
  obtain ⟨ha, hb⟩ :=
    claim_C2_retry_bound (fun _ => AttemptResult.raises "boom") 1 (by decide)
  exact ⟨ha, hb (fun i _ => rfl)⟩

/-- Claim C3, counterexample: with one attempt raising an error whose text is
"quota", every attempt raises, yet the returned message is the generic
fallback "Error: Unexpected error occurred.", which does not embed the last
error's text.  (The quota branch sleeps and re-enters the loop even on the
final attempt, so the exhaustion message of line 63 is skipped.) -/
theorem claim_C3_counterexample :
    (_call_gemini_api (fun _ => AttemptResult.raises "quota") 1).result =
      "Error: Unexpected error occurred." ∧
    containsL ("quota".data)
      ((_call_gemini_api (fun _ => AttemptResult.raises "quota") 1).result.data) =
      false := by
  constructor
  · decide
  · decide

/-- Claim C3 (amended): when all `max_attempts ≥ 1` attempts raise and the
final attempt's error text does not indicate quota/rate limiting, the
returned synthetic message embeds the last error's text; when the final
error is quota/rate-flagged the generic message
"Error: Unexpected error occurred." is returned instead (counterexample). -/
theorem claim_C3_amended (oracle : Nat → AttemptResult) (max_attempts : Nat)
    (msg : String) (hmax : 1 ≤ max_attempts)
    (hall : ∀ i, i < max_attempts → ∃ m, oracle i = .raises m)
    (hlast : oracle (max_attempts - 1) = .raises msg)
    (hq : isQuotaRate msg = false) :
    containsL msg.data
      ((_call_gemini_api oracle max_attempts).result.data) = true := by
  have hres := callLoop_exhaust_result oracle max_attempts msg hq max_attempts 0
    (by omega) (by omega) (fun i _ hi2 => hall i hi2) hlast
  show containsL msg.data
    ((callLoop oracle max_attempts 0 max_attempts).result.data) = true
  rw [hres]
  have e : ∀ a b : String, (a ++ b).data = a.data ++ b.data := fun _ _ => rfl
  rw [e]
  have hrefl : startsWithL msg.data msg.data = true := by
    have h0 := startsWithL_self_append msg.data []
    rwa [List.append_nil] at h0
  exact containsL_append_left _ _ _ (containsL_of_startsWithL _ _ hrefl)

/-- Claim C3, witness for the amended theorem: one attempt raising "boom". -/
theorem claim_C3_witness :
    containsL ("boom".data)
      ((_call_gemini_api (fun _ => AttemptResult.raises "boom") 1).result.data) =
      true :=
  claim_C3_amended (fun _ => AttemptResult.raises "boom") 1 "boom" (by decide)
    (fun _ _ => ⟨"boom", rfl⟩) rfl (by decide)

/-- Claim C4: in every invoker run, an issued attempt `i` that raises a
quota/rate-flagged error is followed by exactly one sleep of 60 units,
independent of `i`; an attempt that raises any other error is followed by
exactly one sleep of `(i+1)*2` units (linear, 1-indexed) when attempts
remain, and by no sleep on the final attempt. -/
theorem claim_C4_backoff (oracle : Nat → AttemptResult) (max_attempts i : Nat)
    (msg : String)
    (hcall : i < (_call_gemini_api oracle max_attempts).calls)
    (horacle : oracle i = .raises msg) :
    (_call_gemini_api oracle max_attempts).sleeps.filter (fun p => p.1 == i) =
      (if isQuotaRate msg = true then [(i, 60)]
       else if i < max_attempts - 1 then [(i, (i + 1) * 2)] else []) := by
  have hcall' : i < 0 + (callLoop oracle max_attempts 0 max_attempts).calls := by
    have h0 : (_call_gemini_api oracle max_attempts).calls =
        (callLoop oracle max_attempts 0 max_attempts).calls := rfl
    omega
  exact callLoop_sleep_filter oracle max_attempts max_attempts 0 i msg
    (by omega) (Nat.zero_le i) hcall' horacle

/-- Claim C4, witness: three attempts, the first raising a quota-flagged
error, the others a generic one; attempt 0 gets exactly one 60-unit sleep. -/
theorem claim_C4_witness :
    (_call_gemini_api
        (fun j => AttemptResult.raises (if j == 0 then "quota hit" else "boom"))
        3).sleeps.filter (fun p => p.1 == 0) = [(0, 60)] := by
  have h := claim_C4_backoff
    (fun j => AttemptResult.raises (if j == 0 then "quota hit" else "boom"))
    3 0 "quota hit" (by decide) (by decide)
  rw [h]
  decide

/-- Claim C8, counterexample: a web start request with both skip flags set is
not rejected — `start_refactoring` starts the background task anyway.  (Only
the CLI entry point validates the flag combination.) -/
theorem claim_C8_counterexample :
    start_refactoring false "proj" "out" "gemini-pro" true true 2 =
      StartResponse.started "proj" "out" "gemini-pro" true true 2 := by
  decide

/-- Claim C8 (amended): the CLI start operation (main.py lines 110-112)
rejects a request with both skip flags set — it exits with code 1 and never
reaches `agent.run()` whatever the earlier validation outcomes — but the web
start operation does not validate the flags: with no task active and a
non-blank source path it starts the background task with both flags set. -/
theorem claim_C8_amended :
    (∀ api_key_ok source_valid output_cleanup_ok : Bool,
      main_decision api_key_ok source_valid output_cleanup_ok true true ≠
        CliOutcome.ranAgent) ∧
    (∀ (sourcePath outputDir model : String) (delay : Int),
      pyStrip sourcePath ≠ "" →
        start_refactoring false sourcePath outputDir model true true delay =
          StartResponse.started (pyStrip sourcePath) outputDir model true true
            delay) := by
  constructor
  · intro a s o
    cases a <;> cases s <;> cases o <;> decide
  · intro sourcePath outputDir model delay hne
    simp only [start_refactoring, Bool.false_eq_true, if_false]
    rw [if_neg hne]

/-- Claim C8, witness for the amended theorem. -/
theorem claim_C8_witness :
    main_decision true true true true true ≠ CliOutcome.ranAgent ∧
    start_refactoring false "proj2" "out" "m" true true 2 =
      StartResponse.started "proj2" "out" "m" true true 2 := by
  constructor
  · exact claim_C8_amended.1 true true true
  · have h := claim_C8_amended.2 "proj2" "out" "m" 2 (by decide)
    have e : pyStrip "proj2" = "proj2" := by decide
    rw [e] at h
    exact h

theorem processFile_preserves (st : BatchState) (fc : FileCase)
    (h : st.files_refactored = st.files_processed) :
    (processFile st fc).files_refactored = (processFile st fc).files_processed := by
  cases hr : fc.read with
  | none => simp [processFile, hr, h]
  | some content =>
    by_cases hb : pyStripL content.data = []
    · simp [processFile, hr, if_pos hb, h]
    · by_cases hw : fc.writeOk = true
      · simp [processFile, hr, if_neg hb, hw, h]
      · simp [processFile, hr, if_neg hb, hw, h]

theorem runBatch_foldl_preserves :
    ∀ (files : List FileCase) (st : BatchState),
      st.files_refactored = st.files_processed →
      (files.foldl processFile st).files_refactored =
        (files.foldl processFile st).files_processed := by
  intro files
  induction files with
  | nil => intro st h; exact h
  | cons fc fs ih =>
    intro st h
    rw [List.foldl_cons]
    exact ih _ (processFile_preserves st fc h)

/-- Claim C9, counterexample: a run over one blank (skipped) file ends with
`files_refactored = files_processed = 0` but one skipped-or-failed file, so
`files_refactored + (skipped or failed) ≠ files_processed`. -/
theorem claim_C9_counterexample :
    (runBatch [⟨"empty.py", some " ", true, "analysis", "resp"⟩]).files_refactored +
        skippedOrFailedCount [⟨"empty.py", some " ", true, "analysis", "resp"⟩] ≠
      (runBatch [⟨"empty.py", some " ", true, "analysis", "resp"⟩]).files_processed := by
  decide

/-- Claim C9 (amended): at run completion the progress-state counters satisfy
`files_refactored = files_processed` — the tracking wrapper increments both
in lockstep — and skipped-or-failed files count toward neither, so the
spec's invariant `files_refactored + (skipped or failed) = files_processed`
holds only when no file is skipped or fails. -/
theorem claim_C9_amended (files : List FileCase) :
    (runBatch files).files_refactored = (runBatch files).files_processed :=
  runBatch_foldl_preserves files initialBatchState rfl

/-- Claim C10: the web start operation's skip-refactoring flag has no effect
on the background task — for any environment and any two runs identical
except for `skip_refactoring`, the task performs the same analysis,
refactoring, remote calls and persisted output.  The embedded task body
never consults the flag, so the two runs are definitionally equal. -/
theorem claim_C10_skip_refactoring_no_effect
    (env : TaskEnv) (source_path output_dir model : String)
    (skip_analysis : Bool) (delay : Nat) :
    run_refactoring_task env source_path output_dir model skip_analysis true
        delay =
      run_refactoring_task env source_path output_dir model skip_analysis false
        delay := rfl
